import Mathlib

/-!
Verification of the segmentation-and-matching core of the target-speaker
diarization pipeline (src/diarization.py, src/embedding.py, src/matcher.py,
src/main.py).

Numeric model: Python floats are modelled as exact rationals (ℚ) for the
time arithmetic of the segmenter/merger, and as reals (ℝ) where square
roots occur (embedding norms and cosine similarity).  External collaborators
(the WebRTC VAD frame classifier, the resemblyzer encoder, ffmpeg sub-clip
extraction, Whisper transcription) are modelled as oracle inputs, since the
program treats them as opaque; all control flow around them is translated
from the source.
-/

/-! ## Interval ordering (Python's `sorted` on pairs is lexicographic) -/

/-- Lexicographic order on `(start, end)` pairs, the order used by Python's
`sorted(segments)` in `merge_segments` (src/diarization.py line 150). -/
def segLe (p q : ℚ × ℚ) : Prop := p.1 < q.1 ∨ (p.1 = q.1 ∧ p.2 ≤ q.2)

instance : DecidableRel segLe := fun _ _ => inferInstanceAs (Decidable (_ ∨ _))

instance : IsTotal (ℚ × ℚ) segLe where
  total p q := by
    rcases lt_trichotomy p.1 q.1 with h | h | h
    · exact Or.inl (Or.inl h)
    · rcases le_total p.2 q.2 with h2 | h2
      · exact Or.inl (Or.inr ⟨h, h2⟩)
      · exact Or.inr (Or.inr ⟨h.symm, h2⟩)
    · exact Or.inr (Or.inl h)

instance : IsTrans (ℚ × ℚ) segLe where
  trans p q r hpq hqr := by
    rcases hpq with h | ⟨h, h2⟩ <;> rcases hqr with h' | ⟨h', h2'⟩
    · exact Or.inl (h.trans h')
    · exact Or.inl (h'.symm ▸ h)
    · exact Or.inl (h ▸ h')
    · exact Or.inr ⟨h.trans h', h2.trans h2'⟩

/-! ## Interval Merger (src/diarization.py, `merge_segments`, lines 145-160) -/

/-- The left-to-right sweep of `merge_segments`: `acc` is the current last
element of `merged`; on each interval, if `current_start - last_end <
threshold` the accumulator's end is overwritten with `current_end`,
otherwise the accumulator is emitted and the current interval becomes the
new accumulator (src/diarization.py lines 152-158). -/
def mergeSweep (t : ℚ) : ℚ × ℚ → List (ℚ × ℚ) → List (ℚ × ℚ)
  | acc, [] => [acc]
  | acc, c :: rest =>
    if c.1 - acc.2 < t then mergeSweep t (acc.1, c.2) rest
    else acc :: mergeSweep t c rest

/-- `merge_segments(segments, threshold)` (src/diarization.py lines 145-160):
empty input returns empty; otherwise the input is sorted (Python `sorted`,
lexicographic on pairs) and swept left to right. -/
def merge_segments (segments : List (ℚ × ℚ)) (threshold : ℚ) : List (ℚ × ℚ) :=
  match List.insertionSort segLe segments with
  | [] => []
  | s :: rest => mergeSweep threshold s rest

/-- Modelled from the spec (§4.2): "any two consecutive intervals whose gap
(`next.start − previous.end`) is strictly less than `mergeThreshold` are
fused into one interval spanning `previous.start` to `next.end`"; intervals
whose gap is ≥ the threshold are kept separate.  Stated on an
already-ordered sequence; used only to compare against `merge_segments`. -/
def mergeFuseSpec (t : ℚ) : List (ℚ × ℚ) → List (ℚ × ℚ)
  | [] => []
  | [p] => [p]
  | p :: q :: rest =>
    if q.1 - p.2 < t then mergeFuseSpec t ((p.1, q.2) :: rest)
    else p :: mergeFuseSpec t (q :: rest)
termination_by l => l.length

/-- A point is covered by a list of intervals if it lies inside one of them. -/
def coversPoint (l : List (ℚ × ℚ)) (x : ℚ) : Prop :=
  ∃ p ∈ l, p.1 ≤ x ∧ x ≤ p.2

/-! ## Voice Activity Segmenter (src/diarization.py) -/

/-- The run-construction loop shared verbatim by
`detect_speech_segments_webrtc` (src/diarization.py lines 48-68) and
`detect_speech_segments_energy` (lines 99-119): walk the per-frame speech
flags with the current frame index and the optional index at which the open
run started; a run closes at a non-speech flag, or at the end of the flag
list, and is kept only if its duration in seconds (frame index times
`frame_duration_ms / 1000`) is at least `min_duration`. -/
def vadLoop (fms minDur : ℚ) : List Bool → Nat → Option Nat → List (ℚ × ℚ)
  | [], _, none => []
  | [], n, some s =>
    if minDur ≤ (n : ℚ) * fms / 1000 - (s : ℚ) * fms / 1000 then
      [((s : ℚ) * fms / 1000, (n : ℚ) * fms / 1000)]
    else []
  | b :: rest, i, none =>
    if b then vadLoop fms minDur rest (i+1) (some i)
    else vadLoop fms minDur rest (i+1) none
  | b :: rest, i, some s =>
    if b then vadLoop fms minDur rest (i+1) (some s)
    else
      (if minDur ≤ (i : ℚ) * fms / 1000 - (s : ℚ) * fms / 1000 then
        [((s : ℚ) * fms / 1000, (i : ℚ) * fms / 1000)]
      else []) ++ vadLoop fms minDur rest (i+1) none

/-- The index from which every interval still to be produced must start:
the open run's start if one is open, else the current frame index. -/
def stIdx : Option Nat → Nat → Nat
  | some s, _ => s
  | none, i => i

/-- `frame_size = int(sample_rate * frame_duration_ms / 1000.0)`
(src/diarization.py line 87). -/
def frameSize (sampleRate : Nat) (frameDurationMs : ℚ) : Nat :=
  ((sampleRate : ℚ) * frameDurationMs / 1000).floor.toNat

/-- `[audio[i:i + frame_size] for i in range(0, len(audio), frame_size)]`
(src/diarization.py line 88); a zero frame size, impossible for the
configurations the program constructs, yields no frames. -/
def chunkFrames (fs : Nat) : List ℝ → List (List ℝ)
  | [] => []
  | x :: xs =>
    if _h : fs = 0 then []
    else (x :: xs).take fs :: chunkFrames fs ((x :: xs).drop fs)
termination_by l => l.length
decreasing_by
  simp only [List.length_drop, List.length_cons]
  omega

/-- `np.sqrt(np.mean(frame ** 2))` (src/diarization.py line 93). -/
noncomputable def frameEnergy (frame : List ℝ) : ℝ :=
  Real.sqrt ((frame.map (fun x => x ^ 2)).sum / (frame.length : ℝ))

/-- The `is_speech` list of the energy detector (src/diarization.py lines
90-94): only full-length frames are classified, by comparing their RMS
energy against the threshold. -/
noncomputable def energyFlags (fs : Nat) (thr : ℝ) (audio : List ℝ) : List Bool :=
  ((chunkFrames fs audio).filter (fun f => decide (f.length = fs))).map
    (fun f => decide (thr < frameEnergy f))

/-- `detect_speech_segments_webrtc` (src/diarization.py lines 20-70).  The
per-frame classification `vad.is_speech(frame_bytes, sample_rate)` is the
external WebRTC VAD collaborator, supplied as the oracle flag list
`isSpeech` (one flag per full-length frame); run construction, the
minimum-duration filter and the final merge follow the source. -/
def detect_speech_segments_webrtc (isSpeech : List Bool)
    (frameDurationMs minDuration mergeThreshold : ℚ) : List (ℚ × ℚ) :=
  merge_segments (vadLoop frameDurationMs minDuration isSpeech 0 none)
    mergeThreshold

/-- `detect_speech_segments_energy` (src/diarization.py lines 73-122):
frames the waveform, classifies each full-length frame by RMS energy
against the threshold, then builds runs and merges exactly as the WebRTC
variant does. -/
noncomputable def detect_speech_segments_energy (audio : List ℝ)
    (sampleRate : Nat) (energyThreshold : ℝ)
    (frameDurationMs minDuration mergeThreshold : ℚ) : List (ℚ × ℚ) :=
  merge_segments
    (vadLoop frameDurationMs minDuration
      (energyFlags (frameSize sampleRate frameDurationMs) energyThreshold audio)
      0 none)
    mergeThreshold

/-! ## Voiceprint Extractor (src/embedding.py, `embed_wav_path`) -/

/-- The error kind required by the claimed contract when the voiceprint
model is unavailable.  Modelled from the spec: `EmbeddingUnavailableError`
appears only in the spec's error taxonomy (§7); no such error class exists
anywhere in the source. -/
inductive EmbedError where
  | embeddingUnavailable
deriving DecidableEq

/-- `embed_wav_path(wav_path)` (src/embedding.py lines 11-27).  The import
probe `HAS_RESEMBLYZER` (lines 4-8) is the Boolean parameter; the encoder's
embedding and the `np.random.randn(256)` draw are oracle inputs (the
encoder is an external model, the random draw is environment state).  The
result is an `Except` so that a fail-fast behaviour would be expressible;
the source returns the random 256-vector whenever the model is unavailable
and never raises. -/
def embed_wav_path (hasResemblyzer : Bool) (randn : Fin 256 → ℝ)
    (encoderEmbedding : List ℝ) : Except EmbedError (List ℝ) :=
  if !hasResemblyzer then Except.ok (List.ofFn randn)
  else Except.ok encoderEmbedding

/-! ## Similarity Scorer (src/embedding.py, `cosine_sim`, lines 30-47) -/

/-- Dot product of two vectors (`np.dot`). -/
def dotp : List ℝ → List ℝ → ℝ
  | x :: xs, y :: ys => x * y + dotp xs ys
  | _, _ => 0

/-- `np.linalg.norm` as used by `cosine_sim`: the L2 norm. -/
noncomputable def norm2 (v : List ℝ) : ℝ := Real.sqrt (dotp v v)

/-- `cosine_sim(a, b)` (src/embedding.py lines 30-47): if either norm is
zero return 0.0, otherwise the dot product divided by the product of the
norms. -/
noncomputable def cosine_sim (a b : List ℝ) : ℝ :=
  if norm2 a = 0 ∨ norm2 b = 0 then 0
  else dotp a b / (norm2 a * norm2 b)

/-! ## Segment Classifier (src/matcher.py, `match_segments`, lines 37-75) -/

/-- One input interval together with the outcomes of its external
collaborator calls: `extractOk` is the Boolean result of
`extract_segment(...)` (the ffmpeg collaborator, src/matcher.py lines
7-35), and `embedResult` is `some` embedding when the
`embed_wav_path`/`cosine_sim` try-block succeeds for this interval and
`none` when it raises. -/
structure SegInput where
  start : ℚ
  «end» : ℚ
  extractOk : Bool
  embedResult : Option (List ℝ)

/-- One element of the `matched_segments` list built by `match_segments`
(src/matcher.py lines 63-69). -/
structure Matched where
  start : ℚ
  «end» : ℚ
  similarity : ℝ
  label : String
  segment_path : String

/-- The `for idx, (start, end) in enumerate(segments)` loop of
`match_segments` (src/matcher.py lines 56-75): a failed extraction or a
raised exception in the embed/score block skips the interval (`continue`);
otherwise the interval is scored against the target embedding and labelled
`"Target"` iff `similarity >= similarity_threshold`. -/
noncomputable def matchLoop (target_embedding : List ℝ) (thr : ℝ) :
    List SegInput → Nat → List Matched
  | [], _ => []
  | seg :: rest, idx =>
    if seg.extractOk then
      match seg.embedResult with
      | some emb =>
        { start := seg.start, «end» := seg.«end»,
          similarity := cosine_sim target_embedding emb,
          label := if thr ≤ cosine_sim target_embedding emb then "Target" else "Other",
          segment_path := "segment_" ++ toString idx ++ ".wav" } ::
          matchLoop target_embedding thr rest (idx + 1)
      | none => matchLoop target_embedding thr rest (idx + 1)
    else matchLoop target_embedding thr rest (idx + 1)

/-- `match_segments(audio_path, target_embedding, segments,
similarity_threshold)` (src/matcher.py lines 37-75). -/
noncomputable def match_segments (target_embedding : List ℝ)
    (segments : List SegInput) (similarity_threshold : ℝ) : List Matched :=
  matchLoop target_embedding similarity_threshold segments 0

/-! ## Diarization Assembler and pipeline gating (src/main.py, `main`) -/

/-- The persisted timeline record (src/main.py lines 121-128, src/utils.py
`save_diarization_json`): keys `speaker, start, end, text, confidence,
similarity`; `confidence` is always `None`. -/
structure DiarizationEntry where
  speaker : String
  start : ℚ
  «end» : ℚ
  text : String
  confidence : Option ℚ
  similarity : ℝ

/-- The diarization-results construction of `main` (src/main.py lines
117-131): one entry per Target-labelled segment, in order, with
`speaker = "Target"`, `confidence = None`, and the transcript produced by
the external Whisper collaborator for that segment (supplied as the oracle
list `transcripts`, one text per Target segment). -/
def buildDiarizationResults (target_segments : List Matched)
    (transcripts : List String) : List DiarizationEntry :=
  (target_segments.zip transcripts).map fun st =>
    { speaker := "Target", start := st.1.start, «end» := st.1.«end»,
      text := st.2, confidence := none, similarity := st.1.similarity }

/-- The exact message printed by `main` before `sys.exit(1)` when no
Target-labelled segment exists (src/main.py line 89). -/
def noTargetMessage : String :=
  "✗ No target segments found. Adjust similarity threshold and try again."

/-- Possible outcomes of the remainder of `main` after classification:
`sys.exit(code)` preceded by a printed message, or completion with the
persisted timeline. -/
inductive RunOutcome where
  | exited (code : Nat) (message : String)
  | completed (timeline : List DiarizationEntry)

/-- `main` from classification onward (src/main.py lines 85-160): filter
the matched segments to the Target-labelled ones; if there are none, print
the no-target message and `sys.exit(1)`; otherwise extract and concatenate
(the concatenation collaborator's success is the oracle `concatOk`; on its
failure `main` prints an error and exits with code 1) and persist the
diarization results built from the Target-labelled segments only. -/
def mainAfterMatching (matched_segments : List Matched)
    (transcripts : List String) (concatOk : Bool) : RunOutcome :=
  let target_segments := matched_segments.filter (fun s => s.label == "Target")
  if target_segments.isEmpty then RunOutcome.exited 1 noTargetMessage
  else if !concatOk then RunOutcome.exited 1 "✗ Error concatenating segments"
  else RunOutcome.completed (buildDiarizationResults target_segments transcripts)

/-- Whether `pat` occurs at the head of the character list. -/
def startsWithChars : List Char → List Char → Bool
  | [], _ => true
  | _ :: _, [] => false
  | p :: ps, c :: cs => p == c && startsWithChars ps cs

/-- Whether `pat` occurs anywhere inside the character list. -/
def hasSubstring (pat : List Char) : List Char → Bool
  | [] => startsWithChars pat []
  | c :: cs => startsWithChars pat (c :: cs) || hasSubstring pat cs

/-! ## Theorems -/

theorem segLe_fst_le {p q : ℚ × ℚ} (h : segLe p q) : p.1 ≤ q.1 := by
  rcases h with h | ⟨h, _⟩
  · exact h.le
  · exact h.le

theorem mergeSweep_eq_fuseSpec (t : ℚ) :
    ∀ (rest : List (ℚ × ℚ)) (acc : ℚ × ℚ),
      mergeSweep t acc rest = mergeFuseSpec t (acc :: rest) := by
  intro rest
  induction rest with
  | nil => intro acc; simp [mergeSweep, mergeFuseSpec]
  | cons c rs ih =>
    intro acc
    simp only [mergeSweep, mergeFuseSpec]
    by_cases h : c.1 - acc.2 < t
    · rw [if_pos h, if_pos h, ih]
    · rw [if_neg h, if_neg h, ih]

/-- C7: for every input list and threshold, `merge_segments` sorts the input
and then fuses any two consecutive intervals whose gap is strictly below the
threshold into one interval spanning from the earlier start to the later
end, keeping intervals whose gap is at least the threshold separate
(`mergeFuseSpec`); in particular `[(0,2),(2,4),(6,8)]` with threshold `0.2`
merges to `[(0,4),(6,8)]`, and the empty input yields the empty output. -/
theorem merge_segments_spec_conform :
    (∀ (S : List (ℚ × ℚ)) (t : ℚ),
        merge_segments S t = mergeFuseSpec t (List.insertionSort segLe S)) ∧
    merge_segments [((0:ℚ),2),(2,4),(6,8)] (1/5) = [(0,4),(6,8)] ∧
    (∀ t : ℚ, merge_segments [] t = []) := by
  refine ⟨?_, ?_, ?_⟩
  · intro S t
    unfold merge_segments
    cases h : List.insertionSort segLe S with
    | nil => simp [mergeFuseSpec]
    | cons s rest => simp [mergeSweep_eq_fuseSpec]
  · norm_num [merge_segments, mergeSweep, List.insertionSort, List.orderedInsert, segLe]
  · intro t
    simp [merge_segments, List.insertionSort]

/-- C10: on the overlapping input `[(0,10),(1,2)]` (which violates the
merger's non-overlapping precondition), for any threshold ≥ 0 the sweep
overwrites the accumulated end `10` with the later-sorted interval's smaller
end `2`, returning `[(0,2)]`, so the point `5`, covered by the input, is no
longer covered by the output. -/
theorem merge_overlap_loses_coverage (t : ℚ) (ht : 0 ≤ t) :
    merge_segments [((0:ℚ),10),(1,2)] t = [(0,2)] ∧
    coversPoint [((0:ℚ),10),(1,2)] 5 ∧
    ¬ coversPoint (merge_segments [((0:ℚ),10),(1,2)] t) 5 := by
  have hsort : List.insertionSort segLe [((0:ℚ),10),(1,2)] = [(0,10),(1,2)] := by
    norm_num [List.insertionSort, List.orderedInsert, segLe]
  have h1 : merge_segments [((0:ℚ),10),(1,2)] t = [(0,2)] := by
    unfold merge_segments
    rw [hsort]
    simp only [mergeSweep]
    rw [if_pos (by linarith : (1:ℚ) - 10 < t)]
  refine ⟨h1, ⟨(0,10), by simp, by norm_num⟩, ?_⟩
  rw [h1]
  rintro ⟨p, hp, h5a, h5b⟩
  simp only [List.mem_singleton] at hp
  subst hp
  norm_num at h5b

/-- C10 witness: the counterexample evaluated at the default threshold 0.2. -/
theorem merge_overlap_loses_coverage_witness :
    merge_segments [((0:ℚ),10),(1,2)] (1/5) = [(0,2)] ∧
    coversPoint [((0:ℚ),10),(1,2)] 5 ∧
    ¬ coversPoint (merge_segments [((0:ℚ),10),(1,2)] (1/5)) 5 :=
  merge_overlap_loses_coverage (1/5) (by norm_num)

theorem segLe_fuse {a c r : ℚ × ℚ} (hac : segLe a c) (hcr : segLe c r) :
    segLe (a.1, c.2) r := by
  have ha1 : a.1 ≤ c.1 := segLe_fst_le hac
  rcases hcr with h | ⟨h, h2⟩
  · exact Or.inl (lt_of_le_of_lt ha1 h)
  · rcases lt_or_eq_of_le ha1 with h' | h'
    · exact Or.inl (h ▸ h')
    · exact Or.inr ⟨h'.trans h, h2⟩

/-- Invariants of a single merge sweep over a sorted list of genuine
intervals (`start < end`): the result is nonempty, keeps the accumulator's
start, consists of genuine intervals, is sorted, and all consecutive gaps
are at least the threshold. -/
theorem mergeSweep_props (t : ℚ) (ht : 0 ≤ t) :
    ∀ (rest : List (ℚ × ℚ)) (acc : ℚ × ℚ),
      acc.1 < acc.2 → (∀ p ∈ rest, p.1 < p.2) → List.Sorted segLe (acc :: rest) →
      ∃ hd tl, mergeSweep t acc rest = hd :: tl
        ∧ hd.1 = acc.1
        ∧ (∀ p ∈ hd :: tl, p.1 < p.2)
        ∧ (∀ p ∈ hd :: tl, acc.1 ≤ p.1)
        ∧ List.Sorted segLe (hd :: tl)
        ∧ List.Chain' (fun p q => t ≤ q.1 - p.2) (hd :: tl) := by
  intro rest
  induction rest with
  | nil =>
    intro acc hacc _ _
    refine ⟨acc, [], rfl, rfl, ?_, ?_, ?_, ?_⟩
    · intro p hp; simp only [List.mem_singleton] at hp; simpa [hp] using hacc
    · intro p hp; simp only [List.mem_singleton] at hp; simp [hp]
    · exact List.sorted_singleton acc
    · simp
  | cons c rs ih =>
    intro acc hacc hrest hsort
    obtain ⟨haall, hsort1⟩ := List.sorted_cons.mp hsort
    obtain ⟨hcall, hsort2⟩ := List.sorted_cons.mp hsort1
    have hac : segLe acc c := haall c (by simp)
    have hc : c.1 < c.2 := hrest c (by simp)
    have hrs : ∀ p ∈ rs, p.1 < p.2 := fun p hp => hrest p (by simp [hp])
    by_cases hm : c.1 - acc.2 < t
    · have hstep : mergeSweep t acc (c :: rs) = mergeSweep t (acc.1, c.2) rs := by
        simp only [mergeSweep]; rw [if_pos hm]
      have hval : (acc.1, c.2).1 < (acc.1, c.2).2 := by
        show acc.1 < c.2
        exact lt_of_le_of_lt (segLe_fst_le hac) hc
      have hsort3 : List.Sorted segLe ((acc.1, c.2) :: rs) :=
        List.sorted_cons.mpr ⟨fun r hr => segLe_fuse hac (hcall r hr), hsort2⟩
      obtain ⟨hd, tl, heq, hfst, hvalid, hlow, hsorted, hchain⟩ :=
        ih (acc.1, c.2) hval hrs hsort3
      exact ⟨hd, tl, hstep.trans heq, hfst, hvalid, hlow, hsorted, hchain⟩
    · have hstep : mergeSweep t acc (c :: rs) = acc :: mergeSweep t c rs := by
        simp only [mergeSweep]; rw [if_neg hm]
      have hsep : t ≤ c.1 - acc.2 := not_lt.mp hm
      obtain ⟨hd, tl, heq, hfst, hvalid, hlow, hsorted, hchain⟩ := ih c hc hrs hsort1
      have hlow' : ∀ p ∈ hd :: tl, acc.1 < p.1 := by
        intro p hp
        have h1 : c.1 ≤ p.1 := hlow p hp
        have h2 : acc.2 + t ≤ c.1 := by linarith
        linarith
      refine ⟨acc, hd :: tl, by rw [hstep, heq], rfl, ?_, ?_, ?_, ?_⟩
      · intro p hp
        rcases List.mem_cons.mp hp with h | h
        · simpa [h] using hacc
        · exact hvalid p h
      · intro p hp
        rcases List.mem_cons.mp hp with h | h
        · simp [h]
        · exact (hlow' p h).le
      · exact List.sorted_cons.mpr ⟨fun p hp => Or.inl (hlow' p hp), hsorted⟩
      · rw [List.chain'_cons]
        exact ⟨by rw [hfst]; linarith, hchain⟩

/-- A sweep over a list whose consecutive gaps are already at least the
threshold emits every interval unchanged. -/
theorem mergeSweep_chain_eq (t : ℚ) :
    ∀ (tl : List (ℚ × ℚ)) (hd : ℚ × ℚ),
      List.Chain' (fun p q => t ≤ q.1 - p.2) (hd :: tl) →
      mergeSweep t hd tl = hd :: tl := by
  intro tl
  induction tl with
  | nil => intro hd _; rfl
  | cons c cs ih =>
    intro hd hch
    rw [List.chain'_cons] at hch
    simp only [mergeSweep]
    rw [if_neg (not_lt.mpr hch.1), ih c hch.2]

/-- C6: the interval merger is idempotent: for every list of genuine
intervals (each with `start < end`) and every threshold `t ≥ 0`, merging
the merged output again with the same threshold returns it unchanged. -/
theorem merge_segments_idempotent (S : List (ℚ × ℚ)) (t : ℚ) (ht : 0 ≤ t)
    (hS : ∀ p ∈ S, p.1 < p.2) :
    merge_segments (merge_segments S t) t = merge_segments S t := by
  cases hsort : List.insertionSort segLe S with
  | nil =>
    have h0 : merge_segments S t = [] := by
      unfold merge_segments; rw [hsort]
    rw [h0]
    rfl
  | cons a rest =>
    have hperm := List.perm_insertionSort segLe S
    rw [hsort] at hperm
    have hmem : ∀ p ∈ a :: rest, p.1 < p.2 := fun p hp => hS p (hperm.mem_iff.mp hp)
    have hsorted : List.Sorted segLe (a :: rest) := by
      have h := List.sorted_insertionSort segLe S
      rw [hsort] at h
      exact h
    obtain ⟨hd, tl, heq, _, _, _, hsorted2, hchain⟩ :=
      mergeSweep_props t ht rest a (hmem a (by simp))
        (fun p hp => hmem p (by simp [hp])) hsorted
    have hms : merge_segments S t = hd :: tl := by
      unfold merge_segments; rw [hsort]; exact heq
    rw [hms]
    unfold merge_segments
    rw [List.Sorted.insertionSort_eq hsorted2]
    exact mergeSweep_chain_eq t tl hd hchain

/-- C6 witness: idempotence at the concrete input `[(0,2),(2,4),(6,8)]`
with the default threshold 0.2. -/
theorem merge_segments_idempotent_witness :
    (0:ℚ) ≤ 1/5 ∧ (∀ p ∈ [((0:ℚ),2),(2,4),(6,8)], p.1 < p.2) ∧
    merge_segments (merge_segments [((0:ℚ),2),(2,4),(6,8)] (1/5)) (1/5) =
      merge_segments [((0:ℚ),2),(2,4),(6,8)] (1/5) :=
  ⟨by norm_num, by norm_num,
    merge_segments_idempotent _ _ (by norm_num) (by norm_num)⟩

theorem frameTimeMono {a b : Nat} (fms : ℚ) (hf : 0 ≤ fms) (h : a ≤ b) :
    (a : ℚ) * fms / 1000 ≤ (b : ℚ) * fms / 1000 := by
  have hab : (a : ℚ) ≤ (b : ℚ) := by exact_mod_cast h
  have := mul_le_mul_of_nonneg_right hab hf
  linarith

/-- Invariants of the run-construction loop: every produced interval has
duration at least `min_duration`, starts no earlier than the pending run's
start (or the current frame index), and the intervals are pairwise ordered
and disjoint. -/
theorem vadLoop_props (fms minDur : ℚ) (hf : 0 < fms) (hd : 0 < minDur) :
    ∀ (flags : List Bool) (i : Nat) (st : Option Nat),
      (∀ s, st = some s → s ≤ i) →
      (∀ p ∈ vadLoop fms minDur flags i st, minDur ≤ p.2 - p.1)
      ∧ (∀ p ∈ vadLoop fms minDur flags i st,
          (stIdx st i : ℚ) * fms / 1000 ≤ p.1)
      ∧ List.Pairwise (fun p q => p.1 < q.1 ∧ p.2 ≤ q.1)
          (vadLoop fms minDur flags i st) := by
  intro flags
  induction flags with
  | nil =>
    intro i st _
    cases st with
    | none => simp [vadLoop]
    | some s =>
      simp only [vadLoop, stIdx]
      split
      next h =>
        refine ⟨?_, ?_, ?_⟩
        · intro p hp; simp only [List.mem_singleton] at hp; subst hp; simpa using h
        · intro p hp; simp only [List.mem_singleton] at hp; subst hp; simp
        · simp
      next h => simp
  | cons b rest ih =>
    intro i st hst
    cases st with
    | none =>
      cases b with
      | true =>
        have hstep : vadLoop fms minDur (true :: rest) i none =
            vadLoop fms minDur rest (i+1) (some i) := by simp [vadLoop]
        rw [hstep]
        obtain ⟨h1, h2, h3⟩ := ih (i+1) (some i) (by intro s hs; injection hs with h; omega)
        refine ⟨h1, ?_, h3⟩
        intro p hp
        have := h2 p hp
        simp only [stIdx] at this ⊢
        exact this
      | false =>
        have hstep : vadLoop fms minDur (false :: rest) i none =
            vadLoop fms minDur rest (i+1) none := by simp [vadLoop]
        rw [hstep]
        obtain ⟨h1, h2, h3⟩ := ih (i+1) none (by simp)
        refine ⟨h1, ?_, h3⟩
        intro p hp
        have hb := h2 p hp
        have hmono : (i : ℚ) * fms / 1000 ≤ ((i+1 : Nat) : ℚ) * fms / 1000 :=
          frameTimeMono fms hf.le (Nat.le_succ i)
        simp only [stIdx] at hb ⊢
        linarith
    | some s =>
      have hsi : s ≤ i := hst s rfl
      cases b with
      | true =>
        have hstep : vadLoop fms minDur (true :: rest) i (some s) =
            vadLoop fms minDur rest (i+1) (some s) := by simp [vadLoop]
        rw [hstep]
        obtain ⟨h1, h2, h3⟩ := ih (i+1) (some s) (by intro s' hs'; injection hs' with h; omega)
        refine ⟨h1, ?_, h3⟩
        intro p hp
        have := h2 p hp
        simp only [stIdx] at this ⊢
        exact this
      | false =>
        have hstep : vadLoop fms minDur (false :: rest) i (some s) =
            (if minDur ≤ (i : ℚ) * fms / 1000 - (s : ℚ) * fms / 1000 then
              [((s : ℚ) * fms / 1000, (i : ℚ) * fms / 1000)]
            else []) ++ vadLoop fms minDur rest (i+1) none := by simp [vadLoop]
        rw [hstep]
        obtain ⟨h1, h2, h3⟩ := ih (i+1) none (by simp)
        have hmono1 : (s : ℚ) * fms / 1000 ≤ ((i+1 : Nat) : ℚ) * fms / 1000 :=
          frameTimeMono fms hf.le (by omega)
        have hmono2 : (i : ℚ) * fms / 1000 ≤ ((i+1 : Nat) : ℚ) * fms / 1000 :=
          frameTimeMono fms hf.le (by omega)
        by_cases hemit : minDur ≤ (i : ℚ) * fms / 1000 - (s : ℚ) * fms / 1000
        · rw [if_pos hemit]
          simp only [List.singleton_append]
          refine ⟨?_, ?_, ?_⟩
          · intro p hp
            rcases List.mem_cons.mp hp with h | h
            · subst h; simpa using hemit
            · exact h1 p h
          · intro p hp
            simp only [stIdx]
            rcases List.mem_cons.mp hp with h | h
            · subst h; simp
            · have := h2 p h
              simp only [stIdx] at this
              linarith
          · refine List.pairwise_cons.mpr ⟨?_, h3⟩
            intro p hp
            have hlow := h2 p hp
            simp only [stIdx] at hlow
            constructor
            · show (s : ℚ) * fms / 1000 < p.1
              linarith
            · show (i : ℚ) * fms / 1000 ≤ p.1
              linarith
        · rw [if_neg hemit]
          simp only [List.nil_append]
          refine ⟨h1, ?_, h3⟩
          intro p hp
          have := h2 p hp
          simp only [stIdx] at this ⊢
          linarith

/-- The merge sweep never shortens durations: if the accumulator and every
pending interval have duration at least `d`, so does every output interval
(the fused interval `(acc.start, c.end)` is at least as long as `c`). -/
theorem mergeSweep_duration (t d : ℚ) :
    ∀ (rest : List (ℚ × ℚ)) (acc : ℚ × ℚ),
      d ≤ acc.2 - acc.1 → (∀ p ∈ rest, d ≤ p.2 - p.1) →
      List.Sorted segLe (acc :: rest) →
      ∀ p ∈ mergeSweep t acc rest, d ≤ p.2 - p.1 := by
  intro rest
  induction rest with
  | nil =>
    intro acc hacc _ _ p hp
    simp only [mergeSweep, List.mem_singleton] at hp
    subst hp
    exact hacc
  | cons c rs ih =>
    intro acc hacc hrest hsort p hp
    obtain ⟨haall, hsort1⟩ := List.sorted_cons.mp hsort
    obtain ⟨hcall, hsort2⟩ := List.sorted_cons.mp hsort1
    have hac : acc.1 ≤ c.1 := segLe_fst_le (haall c (by simp))
    have hcd : d ≤ c.2 - c.1 := hrest c (by simp)
    by_cases hm : c.1 - acc.2 < t
    · rw [show mergeSweep t acc (c :: rs) = mergeSweep t (acc.1, c.2) rs by
        simp only [mergeSweep]; rw [if_pos hm]] at hp
      refine ih (acc.1, c.2) ?_ (fun q hq => hrest q (by simp [hq])) ?_ p hp
      · show d ≤ c.2 - acc.1
        linarith
      · exact List.sorted_cons.mpr
          ⟨fun r hr => segLe_fuse (haall c (by simp)) (hcall r hr), hsort2⟩
    · rw [show mergeSweep t acc (c :: rs) = acc :: mergeSweep t c rs by
        simp only [mergeSweep]; rw [if_neg hm]] at hp
      rcases List.mem_cons.mp hp with h | h
      · subst h; exact hacc
      · exact ih c hcd (fun q hq => hrest q (by simp [hq])) hsort1 p h

/-- A list of genuine intervals whose consecutive gaps are at least a
nonnegative threshold is pairwise ordered and disjoint. -/
theorem chain_gap_pairwise (t : ℚ) (ht : 0 ≤ t) :
    ∀ l : List (ℚ × ℚ), (∀ p ∈ l, p.1 < p.2) →
      List.Chain' (fun p q => t ≤ q.1 - p.2) l →
      List.Pairwise (fun p q => p.1 < q.1 ∧ p.2 ≤ q.1) l := by
  intro l
  induction l with
  | nil => intro _ _; exact List.Pairwise.nil
  | cons a l ih =>
    intro hval hch
    have hpl := ih (fun p hp => hval p (by simp [hp])) hch.tail
    refine List.pairwise_cons.mpr ⟨?_, hpl⟩
    intro r hr
    cases l with
    | nil => simp at hr
    | cons c cs =>
      have hrel : t ≤ c.1 - a.2 := (List.chain'_cons.mp hch).1
      have ha2c : a.2 ≤ c.1 := by linarith
      have ha1 : a.1 < a.2 := hval a (by simp)
      rcases List.mem_cons.mp hr with h | h
      · subst h
        exact ⟨lt_of_lt_of_le ha1 ha2c, ha2c⟩
      · obtain ⟨hcr, _⟩ := List.pairwise_cons.mp hpl
        obtain ⟨hc1, hc2⟩ := hcr r h
        exact ⟨by linarith, by linarith⟩

/-- Core segmenter invariants for an arbitrary per-frame speech flag list:
the merged output has only intervals of duration ≥ `min_duration`, pairwise
ordered and disjoint; and every pre-merge candidate already has duration ≥
`min_duration` (short runs are dropped before merging, never fused). -/
theorem segmenter_core_props (flags : List Bool) (fms minDur mergeT : ℚ)
    (hf : 0 < fms) (hd : 0 < minDur) (hm : 0 ≤ mergeT) :
    (∀ p ∈ merge_segments (vadLoop fms minDur flags 0 none) mergeT,
        minDur ≤ p.2 - p.1)
    ∧ List.Pairwise (fun p q => p.1 < q.1 ∧ p.2 ≤ q.1)
        (merge_segments (vadLoop fms minDur flags 0 none) mergeT)
    ∧ (∀ p ∈ vadLoop fms minDur flags 0 none, minDur ≤ p.2 - p.1) := by
  obtain ⟨hdur, _, hpair⟩ := vadLoop_props fms minDur hf hd flags 0 none (by simp)
  have hsorted : List.Sorted segLe (vadLoop fms minDur flags 0 none) :=
    hpair.imp (fun h => Or.inl h.1)
  cases hvl : vadLoop fms minDur flags 0 none with
  | nil =>
    rw [hvl] at hdur
    have hms : merge_segments ([] : List (ℚ × ℚ)) mergeT = [] := rfl
    rw [hms]
    exact ⟨by simp, by simp, hdur⟩
  | cons a rest =>
    rw [hvl] at hdur hsorted
    have hvalid : ∀ p ∈ a :: rest, p.1 < p.2 := fun p hp => by
      have := hdur p hp; linarith
    have hms : merge_segments (a :: rest) mergeT = mergeSweep mergeT a rest := by
      unfold merge_segments
      rw [List.Sorted.insertionSort_eq hsorted]
    obtain ⟨hd2, tl, heq, _, hval2, _, _, hchain⟩ :=
      mergeSweep_props mergeT hm rest a (hvalid a (by simp))
        (fun p hp => hvalid p (by simp [hp])) hsorted
    refine ⟨?_, ?_, hdur⟩
    · rw [hms]
      exact mergeSweep_duration mergeT minDur rest a (hdur a (by simp))
        (fun p hp => hdur p (by simp [hp])) hsorted
    · rw [hms, heq]
      exact chain_gap_pairwise mergeT hm (hd2 :: tl) hval2 hchain

/-- C9: for every input waveform (equivalently, for every per-frame speech
flag list the external VAD produces, and for every waveform classified by
the energy fallback) and every configuration with `min_duration > 0`,
positive frame duration and nonnegative merge threshold, both segmenters
produce an output that is sorted ascending by start, pairwise disjoint, and
whose every interval has duration at least `min_duration`; moreover every
candidate run is already filtered against `min_duration` before the merge,
so short runs are dropped entirely rather than merged or retained. -/
theorem segmenter_output_invariants (isSpeech : List Bool) (audio : List ℝ)
    (sampleRate : Nat) (energyThreshold : ℝ) (fms minDur mergeT : ℚ)
    (hf : 0 < fms) (hd : 0 < minDur) (hm : 0 ≤ mergeT) :
    ((∀ p ∈ detect_speech_segments_webrtc isSpeech fms minDur mergeT,
        minDur ≤ p.2 - p.1)
      ∧ List.Pairwise (fun p q => p.1 < q.1 ∧ p.2 ≤ q.1)
          (detect_speech_segments_webrtc isSpeech fms minDur mergeT))
    ∧ ((∀ p ∈ detect_speech_segments_energy audio sampleRate energyThreshold
            fms minDur mergeT, minDur ≤ p.2 - p.1)
      ∧ List.Pairwise (fun p q => p.1 < q.1 ∧ p.2 ≤ q.1)
          (detect_speech_segments_energy audio sampleRate energyThreshold
            fms minDur mergeT))
    ∧ (∀ p ∈ vadLoop fms minDur isSpeech 0 none, minDur ≤ p.2 - p.1) := by
  obtain ⟨h1, h2, h3⟩ := segmenter_core_props isSpeech fms minDur mergeT hf hd hm
  obtain ⟨h4, h5, _⟩ := segmenter_core_props
    (energyFlags (frameSize sampleRate fms) energyThreshold audio)
    fms minDur mergeT hf hd hm
  exact ⟨⟨h1, h2⟩, ⟨h4, h5⟩, h3⟩

/-- C9 witness: the invariants instantiated at a concrete flag list and
waveform with the default configuration (30 ms frames, 0.2 s minimum
duration, 0.2 s merge threshold, 16 kHz, energy threshold 0.02). -/
theorem segmenter_output_invariants_witness :
    (0:ℚ) < 30 ∧ (0:ℚ) < 1/5 ∧ (0:ℚ) ≤ 1/5 ∧
    (((∀ p ∈ detect_speech_segments_webrtc [true, true, false] 30 (1/5) (1/5),
        (1/5 : ℚ) ≤ p.2 - p.1)
      ∧ List.Pairwise (fun p q => p.1 < q.1 ∧ p.2 ≤ q.1)
          (detect_speech_segments_webrtc [true, true, false] 30 (1/5) (1/5)))
    ∧ ((∀ p ∈ detect_speech_segments_energy [(0:ℝ), 1, 0] 16000 (2/100 : ℝ)
            30 (1/5) (1/5), (1/5 : ℚ) ≤ p.2 - p.1)
      ∧ List.Pairwise (fun p q => p.1 < q.1 ∧ p.2 ≤ q.1)
          (detect_speech_segments_energy [(0:ℝ), 1, 0] 16000 (2/100 : ℝ)
            30 (1/5) (1/5)))
    ∧ (∀ p ∈ vadLoop 30 (1/5) [true, true, false] 0 none,
        (1/5 : ℚ) ≤ p.2 - p.1)) :=
  ⟨by norm_num, by norm_num, by norm_num,
    segmenter_output_invariants [true, true, false] [(0:ℝ), 1, 0] 16000
      (2/100 : ℝ) 30 (1/5) (1/5) (by norm_num) (by norm_num) (by norm_num)⟩

/-- C2 counterexample: with the model collaborator unavailable
(`HAS_RESEMBLYZER = False`), the extraction does not fail fast with
`EmbeddingUnavailableError`: it returns the random vector. -/
theorem embed_fallback_counterexample :
    embed_wav_path false (fun _ => 0) [(1:ℝ)] =
      Except.ok (List.ofFn (fun _ : Fin 256 => (0:ℝ))) ∧
    embed_wav_path false (fun _ => 0) [(1:ℝ)] ≠
      Except.error EmbedError.embeddingUnavailable := by
  exact ⟨rfl, fun h => Except.noConfusion h⟩

/-- C2 amended: when the model collaborator is unavailable, `embed_wav_path`
always and unconditionally returns the 256-dimensional random vector: the
substitution is silently enabled (no error is raised and no demo-mode flag
gates it), and no invocation of the function ever produces an error. -/
theorem embed_fallback_silent :
    (∀ (randn : Fin 256 → ℝ) (enc : List ℝ),
        embed_wav_path false randn enc = Except.ok (List.ofFn randn)
        ∧ (List.ofFn randn).length = 256) ∧
    (∀ (hasR : Bool) (randn : Fin 256 → ℝ) (enc : List ℝ) (e : EmbedError),
        embed_wav_path hasR randn enc ≠ Except.error e) := by
  constructor
  · intro randn enc
    exact ⟨rfl, by rw [List.length_ofFn]⟩
  · intro hasR randn enc e h
    cases hasR <;> exact Except.noConfusion h

/-- C2 witness: the amended behaviour evaluated at a concrete random draw
and encoder output. -/
theorem embed_fallback_silent_witness :
    embed_wav_path false (fun _ => (0:ℝ)) [] =
      Except.ok (List.ofFn (fun _ : Fin 256 => (0:ℝ))) ∧
    (List.ofFn (fun _ : Fin 256 => (0:ℝ))).length = 256 ∧
    embed_wav_path true (fun _ => (0:ℝ)) [] ≠
      Except.error EmbedError.embeddingUnavailable :=
  ⟨(embed_fallback_silent.1 (fun _ => 0) []).1,
    (embed_fallback_silent.1 (fun _ => 0) []).2,
    embed_fallback_silent.2 true (fun _ => 0) [] EmbedError.embeddingUnavailable⟩

/-- C8: for every pair of equal-length vectors, if either has zero L2 norm
the scorer returns exactly 0.0 (the guard takes the defined branch, no
division is attempted); for every other pair it returns the dot product
divided by the product of the L2 norms, whose denominator is then provably
nonzero, so the undefined division branch is never taken. -/
theorem cosine_sim_zero_norm_guard (a b : List ℝ)
    (hlen : a.length = b.length) :
    ((norm2 a = 0 ∨ norm2 b = 0) → cosine_sim a b = 0) ∧
    (norm2 a ≠ 0 → norm2 b ≠ 0 →
      cosine_sim a b = dotp a b / (norm2 a * norm2 b)
      ∧ norm2 a * norm2 b ≠ 0) := by
  constructor
  · intro h
    simp [cosine_sim, h]
  · intro ha hb
    refine ⟨?_, mul_ne_zero ha hb⟩
    simp [cosine_sim, ha, hb]

/-- C8 witness: the zero-norm guard at `a = [0,0]`, `b = [3,4]`. -/
theorem cosine_sim_zero_norm_guard_witness :
    ([(0:ℝ), 0] : List ℝ).length = ([(3:ℝ), 4] : List ℝ).length ∧
    cosine_sim [(0:ℝ), 0] [(3:ℝ), 4] = 0 := by
  have hn : norm2 [(0:ℝ), 0] = 0 := by simp [norm2, dotp]
  exact ⟨by simp,
    (cosine_sim_zero_norm_guard [(0:ℝ), 0] [(3:ℝ), 4] (by simp)).1 (Or.inl hn)⟩

/-- The classifier's output, projected to intervals, is the in-order
sublist of inputs whose collaborator calls succeeded. -/
theorem matchLoop_shape (target : List ℝ) (thr : ℝ) :
    ∀ (segs : List SegInput) (idx : Nat),
      (matchLoop target thr segs idx).map (fun m => (m.start, m.«end»)) =
        (segs.filter (fun s => s.extractOk && s.embedResult.isSome)).map
          (fun s => (s.start, s.«end»)) := by
  intro segs
  induction segs with
  | nil => intro idx; simp [matchLoop]
  | cons seg rest ih =>
    intro idx
    by_cases hex : seg.extractOk
    · cases hemb : seg.embedResult with
      | some emb => simp [matchLoop, hex, hemb, List.filter_cons, ih]
      | none => simp [matchLoop, hex, hemb, List.filter_cons, ih]
    · simp only [Bool.not_eq_true] at hex
      simp [matchLoop, hex, List.filter_cons, ih]

/-- Filtering a list splits its length into kept and discarded elements. -/
theorem length_filter_split {α : Type} (p : α → Bool) :
    ∀ l : List α, (l.filter p).length + l.countP (fun x => !(p x)) = l.length := by
  intro l
  induction l with
  | nil => simp
  | cons x xs ih =>
    cases hx : p x <;> simp [List.filter_cons, List.countP_cons, hx] <;> omega

/-- Every segment the classifier emits is labelled by the threshold test. -/
theorem matchLoop_label (target : List ℝ) (thr : ℝ) :
    ∀ (segs : List SegInput) (idx : Nat) (m : Matched),
      m ∈ matchLoop target thr segs idx →
      (m.label = "Target" ↔ thr ≤ m.similarity) := by
  intro segs
  induction segs with
  | nil => intro idx m hm; simp [matchLoop] at hm
  | cons seg rest ih =>
    intro idx m hm
    by_cases hex : seg.extractOk
    · cases hemb : seg.embedResult with
      | some emb =>
        simp only [matchLoop, hex, if_true, hemb] at hm
        rcases List.mem_cons.mp hm with h | h
        · subst h
          by_cases hsim : thr ≤ cosine_sim target emb
          · simp [hsim]
          · simp only [if_neg hsim]
            exact iff_of_false (by decide) hsim
        · exact ih (idx + 1) m h
      | none =>
        simp only [matchLoop, hex, if_true, hemb] at hm
        exact ih (idx + 1) m hm
    · simp only [Bool.not_eq_true] at hex
      simp only [matchLoop, hex, Bool.false_eq_true, if_false] at hm
      exact ih (idx + 1) m hm

/-- C4: a per-interval failure (extraction failure or embedding failure for
that one interval) drops only that interval: the classifier's output,
projected to intervals, is exactly the in-order sublist of input intervals
whose collaborator calls both succeeded, and the output count equals the
input count minus the number of failed intervals. -/
theorem match_segments_drop_policy (target : List ℝ) (thr : ℝ)
    (segments : List SegInput) :
    (match_segments target segments thr).map (fun m => (m.start, m.«end»)) =
      (segments.filter (fun s => s.extractOk && s.embedResult.isSome)).map
        (fun s => (s.start, s.«end»)) ∧
    (match_segments target segments thr).length =
      segments.length -
        segments.countP (fun s => !(s.extractOk && s.embedResult.isSome)) := by
  have hshape := matchLoop_shape target thr segments 0
  refine ⟨hshape, ?_⟩
  have hlen : (match_segments target segments thr).length =
      (segments.filter (fun s => s.extractOk && s.embedResult.isSome)).length := by
    have h := congrArg List.length hshape
    simpa using h
  have hsplit := length_filter_split
    (fun s => s.extractOk && s.embedResult.isSome) segments
  omega

/-- C5: every interval the classifier emits is labelled `"Target"` if and
only if its computed similarity is at least `similarity_threshold`; in
particular a similarity exactly equal to the threshold yields `"Target"`,
and otherwise the label is `"Other"`. -/
theorem match_segments_label_iff (target : List ℝ) (thr : ℝ)
    (segments : List SegInput) :
    ∀ m ∈ match_segments target segments thr,
      m.label = "Target" ↔ thr ≤ m.similarity :=
  fun m hm => matchLoop_label target thr segments 0 m hm

/-- C5 witness: the boundary case, a segment whose similarity is exactly
the threshold (both 1), which is labelled `"Target"`. -/
theorem match_segments_label_iff_witness :
    (⟨0, 2, 1, "Target", "segment_0.wav"⟩ : Matched) ∈
      match_segments [(1:ℝ)] [⟨0, 2, true, some [(1:ℝ)]⟩] 1 ∧
    ((⟨0, 2, 1, "Target", "segment_0.wav"⟩ : Matched).label = "Target" ↔
      (1:ℝ) ≤ (⟨0, 2, 1, "Target", "segment_0.wav"⟩ : Matched).similarity) := by
  have hd1 : dotp [(1:ℝ)] [(1:ℝ)] = 1 := by norm_num [dotp]
  have hn : norm2 [(1:ℝ)] = 1 := by simp [norm2, hd1]
  have hc : cosine_sim [(1:ℝ)] [(1:ℝ)] = 1 := by
    rw [cosine_sim, hn, hd1]; norm_num
  have hms : match_segments [(1:ℝ)] [⟨0, 2, true, some [(1:ℝ)]⟩] 1 =
      [⟨0, 2, 1, "Target", "segment_0.wav"⟩] := by
    simp [match_segments, matchLoop, hc]
    decide
  have hmem : (⟨0, 2, 1, "Target", "segment_0.wav"⟩ : Matched) ∈
      match_segments [(1:ℝ)] [⟨0, 2, true, some [(1:ℝ)]⟩] 1 := by
    rw [hms]; exact List.mem_singleton.mpr rfl
  exact ⟨hmem, match_segments_label_iff [(1:ℝ)] 1 _ _ hmem⟩

/-- C1 counterexample: a classified sequence containing an Other-labelled
segment; the persisted timeline contains no entry for it at all (rather
than an entry with `text = ""`): only the Target entry appears, with no
separate opt-in step available for including Other segments. -/
theorem timeline_excludes_other_counterexample :
    mainAfterMatching
        [⟨2, 4, 1, "Target", "segment_0.wav"⟩, ⟨0, 2, 0, "Other", "segment_1.wav"⟩]
        ["hello"] true =
      RunOutcome.completed [⟨"Target", 2, 4, "hello", none, 1⟩] ∧
    (⟨0, 2, 0, "Other", "segment_1.wav"⟩ : Matched).label = "Other" :=
  ⟨rfl, rfl⟩

/-- C1 amended: the pipeline persists Target-labelled entries only: every
entry of any completed run's timeline has `speaker = "Target"`, because
`main` unconditionally filters Other-labelled segments out before assembly
(the filtering is baked in, not an explicit separate step). -/
theorem timeline_target_only (matched : List Matched)
    (transcripts : List String) (concatOk : Bool)
    (tl : List DiarizationEntry)
    (hrun : mainAfterMatching matched transcripts concatOk =
      RunOutcome.completed tl) :
    ∀ e ∈ tl, e.speaker = "Target" := by
  simp only [mainAfterMatching] at hrun
  split at hrun
  · exact RunOutcome.noConfusion hrun
  · split at hrun
    · exact RunOutcome.noConfusion hrun
    · injection hrun with h
      subst h
      intro e he
      simp only [buildDiarizationResults, List.mem_map] at he
      obtain ⟨st, _, hfa⟩ := he
      rw [← hfa]

/-- C1 witness: a completed run with a single Target segment, whose only
timeline entry indeed has `speaker = "Target"`. -/
theorem timeline_target_only_witness :
    mainAfterMatching [⟨2, 4, (1:ℝ), "Target", "p0"⟩] ["hi"] true =
      RunOutcome.completed [⟨"Target", 2, 4, "hi", none, 1⟩] ∧
    (⟨"Target", (2:ℚ), 4, "hi", none, (1:ℝ)⟩ : DiarizationEntry).speaker =
      "Target" := by
  have hrun : mainAfterMatching [⟨2, 4, (1:ℝ), "Target", "p0"⟩] ["hi"] true =
      RunOutcome.completed [⟨"Target", 2, 4, "hi", none, 1⟩] := rfl
  exact ⟨hrun, timeline_target_only _ _ _ _ hrun
    ⟨"Target", 2, 4, "hi", none, 1⟩ (by simp)⟩

/-- C3 counterexample: a run whose classification produced one interval,
labelled Other, aborts via the generic `sys.exit(1)` with the literal
message; the message names no `NoTargetSegmentsError` and does not tell
the caller to verify the target reference sample (the word "verify" does
not occur in it). -/
theorem no_target_exit_counterexample :
    mainAfterMatching [⟨0, 2, 0, "Other", "segment_0.wav"⟩] ["x"] true =
      RunOutcome.exited 1 noTargetMessage ∧
    hasSubstring "verify".data noTargetMessage.data = false ∧
    hasSubstring "NoTargetSegments".data noTargetMessage.data = false := by
  refine ⟨rfl, ?_, ?_⟩ <;> decide

/-- C3 amended: when every computed similarity is below the threshold (so
classification produced zero Target-labelled intervals), the run aborts
with process exit code 1 printing the fixed message, which tells the
caller to adjust the similarity threshold; there is no dedicated
`NoTargetSegmentsError` kind, and the message does not mention verifying
the target reference sample. -/
theorem no_target_exit (target : List ℝ) (thr : ℝ)
    (segments : List SegInput) (transcripts : List String) (concatOk : Bool)
    (hall : ∀ m ∈ match_segments target segments thr, m.similarity < thr) :
    mainAfterMatching (match_segments target segments thr) transcripts
        concatOk =
      RunOutcome.exited 1 noTargetMessage ∧
    hasSubstring "similarity threshold".data noTargetMessage.data = true := by
  have hfilter : (match_segments target segments thr).filter
      (fun s => s.label == "Target") = [] := by
    rw [List.filter_eq_nil_iff]
    intro m hm
    have hiff := matchLoop_label target thr segments 0 m hm
    have hlt := hall m hm
    simp only [beq_iff_eq]
    intro hlab
    exact absurd (hiff.mp hlab) (not_le.mpr hlt)
  refine ⟨?_, by decide⟩
  simp [mainAfterMatching, hfilter]

/-- C3 witness: a concrete run whose one segment scores similarity 0
against the target (below the default threshold 0.68) and which therefore
exits with the fixed message. -/
theorem no_target_exit_witness :
    (∀ m ∈ match_segments [(1:ℝ)] [⟨0, 2, true, some [(0:ℝ)]⟩] (68/100 : ℝ),
        m.similarity < (68/100 : ℝ)) ∧
    (mainAfterMatching
        (match_segments [(1:ℝ)] [⟨0, 2, true, some [(0:ℝ)]⟩] (68/100 : ℝ))
        ["x"] true =
      RunOutcome.exited 1 noTargetMessage ∧
    hasSubstring "similarity threshold".data noTargetMessage.data = true) := by
  have hz : norm2 [(0:ℝ)] = 0 := by simp [norm2, dotp]
  have hc : cosine_sim [(1:ℝ)] [(0:ℝ)] = 0 := by simp [cosine_sim, hz]
  have hms : match_segments [(1:ℝ)] [⟨0, 2, true, some [(0:ℝ)]⟩] (68/100 : ℝ) =
      [⟨0, 2, 0, "Other", "segment_0.wav"⟩] := by
    norm_num [match_segments, matchLoop, hc]
    decide
  have hall : ∀ m ∈ match_segments [(1:ℝ)] [⟨0, 2, true, some [(0:ℝ)]⟩]
      (68/100 : ℝ), m.similarity < (68/100 : ℝ) := by
    rw [hms]
    intro m hm
    simp only [List.mem_singleton] at hm
    subst hm
    norm_num
  exact ⟨hall, no_target_exit [(1:ℝ)] (68/100 : ℝ) _ ["x"] true hall⟩
